import Mathlib

/-!
Verification of the on-demand transcoding cache in `src/app.py`.

The development shallowly embeds the functions of the source file:

* `make_cache_key` (with `sanitizeTime` for Python's `replace(":", "-")`
  and `decimalStr` for `str(int(time.time()))`),
* a filesystem model `FS` with `download_drive_file_to_temp`,
  `convert_awb_to_mp3`, `osReplace` (Python `os.replace`) and
  `convert_and_cache`,
* the `api_convert` request handler, and
* a small-step interleaving model of the deduplication coordinator
  (`ongoing` dict + `ongoing_lock` + `Future`s) used by `api_convert`.
-/

namespace DriveCache

/-! ### Decimal representation, modelling Python `str` on a nonnegative int -/

/-- Little-endian decimal digits of `n` (empty for `0`), modelling the digit
sequence of Python `str` of a nonnegative integer. -/
def decDigits (n : Nat) : List Nat :=
  if n = 0 then [] else n % 10 :: decDigits (n / 10)
termination_by n
decreasing_by
  simp_wf
  omega

theorem decDigits_zero : decDigits 0 = [] := by
  rw [decDigits]
  simp

theorem decDigits_of_ne_zero (n : Nat) (h : n ≠ 0) :
    decDigits n = n % 10 :: decDigits (n / 10) := by
  rw [decDigits]
  simp [h]

theorem decDigits_injective : ∀ m n : Nat, decDigits m = decDigits n → m = n := by
  intro m
  induction m using Nat.strong_induction_on with
  | _ m ih =>
    intro n h
    by_cases hm : m = 0
    · subst hm
      by_cases hn : n = 0
      · omega
      · rw [decDigits_zero, decDigits_of_ne_zero n hn] at h
        exact absurd h (by simp)
    · by_cases hn : n = 0
      · rw [decDigits_of_ne_zero m hm, hn, decDigits_zero] at h
        exact absurd h (by simp)
      · rw [decDigits_of_ne_zero m hm, decDigits_of_ne_zero n hn] at h
        have hmod : m % 10 = n % 10 := by
          exact (List.cons.injEq _ _ _ _ ▸ h).1
        have htail : decDigits (m / 10) = decDigits (n / 10) := by
          exact (List.cons.injEq _ _ _ _ ▸ h).2
        have hdiv : m / 10 = n / 10 := ih (m / 10) (by omega) _ htail
        omega

theorem decDigits_lt_ten : ∀ n : Nat, ∀ d ∈ decDigits n, d < 10 := by
  intro n
  induction n using Nat.strong_induction_on with
  | _ n ih =>
    intro d hd
    by_cases hn : n = 0
    · rw [hn, decDigits_zero] at hd
      simp at hd
    · rw [decDigits_of_ne_zero n hn] at hd
      rcases List.mem_cons.mp hd with h1 | h2
      · omega
      · exact ih (n / 10) (by omega) d h2

/-- Model of Python `str` on a nonnegative integer: the usual decimal
numeral (most significant digit first), `"0"` for zero. -/
def decimalStr (n : Nat) : String :=
  if n = 0 then "0" else String.mk (((decDigits n).map Nat.digitChar).reverse)

theorem digitChar_inj_below_ten :
    ∀ a < 10, ∀ b < 10, Nat.digitChar a = Nat.digitChar b → a = b := by
  decide

theorem map_digitChar_inj :
    ∀ l1 l2 : List Nat, (∀ d ∈ l1, d < 10) → (∀ d ∈ l2, d < 10) →
      l1.map Nat.digitChar = l2.map Nat.digitChar → l1 = l2 := by
  intro l1
  induction l1 with
  | nil =>
    intro l2 _ _ h
    cases l2 with
    | nil => rfl
    | cons b t => exact absurd h (by simp)
  | cons a t ih =>
    intro l2 h1 h2 h
    cases l2 with
    | nil => exact absurd h (by simp)
    | cons b t2 =>
      simp only [List.map_cons, List.cons.injEq] at h
      have hab : a = b :=
        digitChar_inj_below_ten a (h1 a (by simp)) b (h2 b (by simp)) h.1
      have ht : t = t2 :=
        ih t2 (fun d hd => h1 d (by simp [hd])) (fun d hd => h2 d (by simp [hd])) h.2
      rw [hab, ht]

theorem decimalStr_injective : ∀ m n : Nat, decimalStr m = decimalStr n → m = n := by
  have key : ∀ n : Nat, n ≠ 0 →
      String.mk (((decDigits n).map Nat.digitChar).reverse) ≠ "0" := by
    intro n hn h
    have hdata : ((decDigits n).map Nat.digitChar).reverse = ['0'] := by
      exact congrArg String.data h
    have hmap : (decDigits n).map Nat.digitChar = ['0'] := by
      have := congrArg List.reverse hdata
      simpa using this
    cases hdd : decDigits n with
    | nil => rw [hdd] at hmap; exact absurd hmap (by simp)
    | cons d rest =>
      rw [hdd] at hmap
      simp only [List.map_cons, List.cons.injEq] at hmap
      have hrest : rest = [] := by
        have := hmap.2
        cases rest with
        | nil => rfl
        | cons x xs => exact absurd this (by simp)
      have hd10 : d < 10 := decDigits_lt_ten n d (by rw [hdd]; simp)
      have hd0 : d = 0 := by
        have h0 : Nat.digitChar d = Nat.digitChar 0 := hmap.1
        exact digitChar_inj_below_ten d hd10 0 (by omega) h0
      rw [hrest, hd0] at hdd
      have : n = 0 := by
        have h1 : n % 10 = 0 ∧ decDigits (n / 10) = [] := by
          rw [decDigits_of_ne_zero n hn] at hdd
          exact ⟨(List.cons.injEq _ _ _ _ ▸ hdd).1, (List.cons.injEq _ _ _ _ ▸ hdd).2⟩
        have h2 : n / 10 = 0 := decDigits_injective _ 0 (by rw [h1.2, decDigits_zero])
        omega
      exact hn this
  intro m n h
  unfold decimalStr at h
  by_cases hm : m = 0
  · by_cases hn : n = 0
    · omega
    · rw [if_pos hm, if_neg hn] at h
      exact absurd h.symm (key n hn)
  · by_cases hn : n = 0
    · rw [if_neg hm, if_pos hn] at h
      exact absurd h (key m hm)
    · rw [if_neg hm, if_neg hn] at h
      have hdata : ((decDigits m).map Nat.digitChar).reverse
          = ((decDigits n).map Nat.digitChar).reverse := congrArg String.data h
      have hmap : (decDigits m).map Nat.digitChar = (decDigits n).map Nat.digitChar := by
        have := congrArg List.reverse hdata
        simpa using this
      exact decDigits_injective m n
        (map_digitChar_inj _ _ (decDigits_lt_ten m) (decDigits_lt_ten n) hmap)

/-! ### Cache key derivation (`make_cache_key` in `src/app.py`) -/

/-- Model of Python `modified_time.replace(":", "-")`: every colon becomes a
dash, all other characters unchanged. -/
def sanitizeTime (s : String) : String :=
  String.mk (s.data.map (fun c => if c = ':' then '-' else c))

/-- Model of `make_cache_key(file_id, modified_time)`: Python truthiness makes both
`None` and `""` fall back to `str(int(time.time()))`, modelled by the
`now` parameter (current wall-clock seconds). -/
def make_cache_key (file_id : String) (modified_time : Option String) (now : Nat) : String :=
  let safe_mod :=
    match modified_time with
    | some t => if t = "" then decimalStr now else sanitizeTime t
    | none => decimalStr now
  file_id ++ "_" ++ safe_mod

theorem string_append_left_cancel (p a b : String) (h : p ++ a = p ++ b) : a = b := by
  have hdata : p.data ++ a.data = p.data ++ b.data := by
    have h1 := congrArg String.data h
    simpa [String.data_append] using h1
  have : a.data = b.data := List.append_cancel_left hdata
  cases a
  cases b
  exact congrArg String.mk this

/-- Predicate: `s` contains no dash character. -/
def noDash (s : String) : Prop := '-' ∉ s.data

instance (s : String) : Decidable (noDash s) := by
  unfold noDash
  infer_instance

theorem map_colon_dash_inj :
    ∀ l1 l2 : List Char, '-' ∉ l1 → '-' ∉ l2 →
      l1.map (fun c => if c = ':' then '-' else c)
        = l2.map (fun c => if c = ':' then '-' else c) → l1 = l2 := by
  intro l1
  induction l1 with
  | nil =>
    intro l2 _ _ h
    cases l2 with
    | nil => rfl
    | cons b t => exact absurd h (by simp)
  | cons a t ih =>
    intro l2 h1 h2 h
    cases l2 with
    | nil => exact absurd h (by simp)
    | cons b t2 =>
      simp only [List.map_cons, List.cons.injEq] at h
      have ha : a ≠ '-' := fun hc => h1 (by simp [hc])
      have hb : b ≠ '-' := fun hc => h2 (by simp [hc])
      have hab : a = b := by
        by_cases hac : a = ':'
        · by_cases hbc : b = ':'
          · rw [hac, hbc]
          · rw [if_pos hac, if_neg hbc] at h
            exact absurd h.1.symm hb
        · by_cases hbc : b = ':'
          · rw [if_neg hac, if_pos hbc] at h
            exact absurd h.1 ha
          · rw [if_neg hac, if_neg hbc] at h
            exact h.1
      have ht : t = t2 :=
        ih t2 (fun hc => h1 (by simp [hc])) (fun hc => h2 (by simp [hc])) h.2
      rw [hab, ht]

theorem sanitizeTime_inj (t1 t2 : String) (h1 : noDash t1) (h2 : noDash t2)
    (h : sanitizeTime t1 = sanitizeTime t2) : t1 = t2 := by
  have hmap : t1.data.map (fun c => if c = ':' then '-' else c)
      = t2.data.map (fun c => if c = ':' then '-' else c) := congrArg String.data h
  have hdata : t1.data = t2.data := map_colon_dash_inj _ _ h1 h2 hmap
  cases t1
  cases t2
  exact congrArg String.mk hdata

instance {ε α : Type} [DecidableEq ε] [DecidableEq α] : DecidableEq (Except ε α) :=
  fun a b =>
    match a, b with
    | .error e1, .error e2 =>
      if h : e1 = e2 then isTrue (by rw [h]) else isFalse (by simp [h])
    | .error _, .ok _ => isFalse (by simp)
    | .ok _, .error _ => isFalse (by simp)
    | .ok a1, .ok a2 =>
      if h : a1 = a2 then isTrue (by rw [h]) else isFalse (by simp [h])

/-! ### Google Drive metadata (`drive_file_metadata` result fields) -/

/-- The metadata fields of a Drive file that `convert_and_cache` and
`api_convert` read. -/
structure Meta where
  modifiedTime : Option String
  createdTime : Option String
deriving DecidableEq

/-- Python `a or b` for an optional string `a`: both `None` and `""` are
falsy and fall through to `b`. -/
def truthyOrElse (a : Option String) (b : String) : String :=
  match a with
  | some s => if s = "" then b else s
  | none => b

/-- Model of `meta.get("modifiedTime") or meta.get("createdTime") or ""`. -/
def metaTime (m : Meta) : String :=
  truthyOrElse m.modifiedTime (truthyOrElse m.createdTime "")

/-! ### Filesystem model -/

/-- Content of a file on disk: either partially written (`part n`, with `n`
bytes so far) or a complete payload `full a`. -/
inductive Content
  | part (n : Nat)
  | full (a : String)
deriving DecidableEq

/-- A filesystem: an association list from paths to file contents. -/
abbrev FS := List (String × Content)

def fsGet : FS → String → Option Content
  | [], _ => none
  | (q, c) :: rest, p => if q = p then some c else fsGet rest p

def fsSet (fs : FS) (p : String) (c : Content) : FS :=
  match fs with
  | [] => [(p, c)]
  | (q, c0) :: rest => if q = p then (p, c) :: rest else (q, c0) :: fsSet rest p c

def fsRemove : FS → String → FS
  | [], _ => []
  | (q, c) :: rest, p => if q = p then fsRemove rest p else (q, c) :: fsRemove rest p

def fsExists (fs : FS) (p : String) : Bool := (fsGet fs p).isSome

theorem fsGet_set_self (fs : FS) (p : String) (c : Content) :
    fsGet (fsSet fs p c) p = some c := by
  induction fs with
  | nil => simp [fsSet, fsGet]
  | cons hd rest ih =>
    obtain ⟨q, c0⟩ := hd
    by_cases hq : q = p
    · simp [fsSet, hq, fsGet]
    · simp [fsSet, hq, fsGet, ih]

theorem fsGet_set_ne (fs : FS) (p q : String) (c : Content) (h : p ≠ q) :
    fsGet (fsSet fs p c) q = fsGet fs q := by
  induction fs with
  | nil => simp [fsSet, fsGet, h]
  | cons hd rest ih =>
    obtain ⟨r, c0⟩ := hd
    by_cases hr : r = p
    · subst hr
      simp [fsSet, fsGet, h]
    · simp [fsSet, hr, fsGet, ih]

theorem fsGet_remove_ne (fs : FS) (p q : String) (h : p ≠ q) :
    fsGet (fsRemove fs p) q = fsGet fs q := by
  induction fs with
  | nil => simp [fsRemove]
  | cons hd rest ih =>
    obtain ⟨r, c0⟩ := hd
    by_cases hr : r = p
    · subst hr
      simp [fsRemove, fsGet, h, ih]
    · simp [fsRemove, hr, fsGet, ih]

theorem fsGet_remove_self (fs : FS) (p : String) :
    fsGet (fsRemove fs p) p = none := by
  induction fs with
  | nil => simp [fsRemove, fsGet]
  | cons hd rest ih =>
    obtain ⟨r, c0⟩ := hd
    by_cases hr : r = p
    · simp [fsRemove, hr, ih]
    · simp [fsRemove, hr, fsGet, ih]

/-- Python `os.replace(src, dst)`: atomically moves `src` over `dst`,
overwriting an existing destination (this is why a pre-existing
destination is not an error). A missing source would raise; in the
modelled flows the source always exists, so that case leaves `fs`. -/
def osReplace (fs : FS) (src dst : String) : FS :=
  match fsGet fs src with
  | none => fs
  | some c => fsSet (fsRemove fs src) dst c

/-! ### The artifact store paths (`CACHE_DIR / f"{key}.mp3"`) -/

def cacheDir : String := "/tmp/awb_mp3_cache/"

def cachePathOf (key : String) : String := cacheDir ++ key ++ ".mp3"

/-! ### `download_drive_file_to_temp` -/

/-- One observation from `resp.iter_content`: a (nonempty) chunk of `n`
bytes, or a streaming failure raising an exception with message `e`. -/
inductive FetchEv
  | chunk (n : Nat)
  | fail (e : String)
deriving DecidableEq

/-- Result of a disk-writing step: final filesystem, the intermediate
filesystem states produced (in order), and the returned value. -/
structure DlResult where
  fs : FS
  trace : List FS
  result : Except String String
deriving DecidableEq

/-- The write loop of `download_drive_file_to_temp`: append each chunk to
the scratch file; a streaming failure propagates out of the loop, and the
`finally` block only closes the file (`tmp.close()`), it does not remove
it. -/
def downloadGo (tmp : String) : FS → Nat → List FetchEv → DlResult
  | fs, _, [] => ⟨fs, [], .ok tmp⟩
  | fs, written, .chunk m :: rest =>
    let fs1 := fsSet fs tmp (.part (written + m))
    let r := downloadGo tmp fs1 (written + m) rest
    ⟨r.fs, fs1 :: r.trace, r.result⟩
  | fs, _, .fail e :: _ => ⟨fs, [], .error e⟩

/-- Model of `download_drive_file_to_temp`: `initial` models
`requests.get` + `raise_for_status` (an error here happens before the
scratch file is created); on success a `NamedTemporaryFile(delete=False)`
is created at `tmp` and the stream is written to it chunk by chunk. -/
def download_drive_file_to_temp (fs : FS) (tmp : String)
    (initial : Except String Unit) (stream : List FetchEv) : DlResult :=
  match initial with
  | .error e => ⟨fs, [], .error e⟩
  | .ok _ =>
    let fs1 := fsSet fs tmp (.part 0)
    let r := downloadGo tmp fs1 0 stream
    ⟨r.fs, fs1 :: r.trace, r.result⟩

/-! ### `convert_awb_to_mp3` -/

/-- Outcome of `subprocess.run(["ffmpeg", ...])`. -/
structure ProcResult where
  returncode : Int
  stderr : String
deriving DecidableEq

structure StepResult where
  fs : FS
  trace : List FS
  result : Except String Unit
deriving DecidableEq

/-- Model of `convert_awb_to_mp3(input_path, output_path)`: `produced` is what the
ffmpeg process left at `output_path` (if anything). On a non-zero exit the
partial output is removed if it exists and `RuntimeError(proc.stderr)` is
raised. -/
def convert_awb_to_mp3 (fs : FS) (output_path : String) (proc : ProcResult)
    (produced : Option Content) : StepResult :=
  let fs1 :=
    match produced with
    | some c => fsSet fs output_path c
    | none => fs
  if proc.returncode = 0 then
    ⟨fs1, [fs1], .ok ()⟩
  else
    let fs2 := if fsExists fs1 output_path then fsRemove fs1 output_path else fs1
    ⟨fs2, [fs1, fs2], .error proc.stderr⟩

/-! ### `convert_and_cache` -/

/-- External-world effect counters of one `convert_and_cache` call:
how many source-byte fetches and how many ffmpeg invocations happened. -/
structure Effects where
  downloads : Nat
  transcodes : Nat
deriving DecidableEq

/-- The oracle for one `convert_and_cache` run: the metadata fetch result,
the wall clock at key derivation, the download behaviour, the names the
two `NamedTemporaryFile` calls hand out, and the ffmpeg behaviour. -/
structure ConvEnv where
  meta : Except String Meta
  now : Nat
  dlInitial : Except String Unit
  dlStream : List FetchEv
  inTmp : String
  outTmp : String
  proc : ProcResult
  produced : Option Content
deriving DecidableEq

structure ConvResult where
  fs : FS
  trace : List FS
  result : Except String String
  effects : Effects
deriving DecidableEq

/-- Model of `convert_and_cache(file_id)`: fetch fresh metadata, derive the key,
return the cached artifact if present; otherwise download the source,
create the output scratch file, transcode, atomically install via
`os.replace`, and in the `finally` block remove the input scratch file.
`trace` lists every filesystem state of the run in order. -/
def convert_and_cache (env : ConvEnv) (file_id : String) (fs : FS) : ConvResult :=
  match env.meta with
  | .error e => ⟨fs, [fs], .error e, ⟨0, 0⟩⟩
  | .ok m =>
    let key := make_cache_key file_id (some (metaTime m)) env.now
    let cached := cachePathOf key
    if fsExists fs cached then ⟨fs, [fs], .ok cached, ⟨0, 0⟩⟩
    else
      let dl := download_drive_file_to_temp fs env.inTmp env.dlInitial env.dlStream
      match dl.result with
      | .error e => ⟨dl.fs, fs :: dl.trace, .error e, ⟨1, 0⟩⟩
      | .ok input_tmp =>
        let fs2 := fsSet dl.fs env.outTmp (.part 0)
        let conv := convert_awb_to_mp3 fs2 env.outTmp env.proc env.produced
        match conv.result with
        | .error e =>
          let fs4 := if fsExists conv.fs input_tmp then fsRemove conv.fs input_tmp else conv.fs
          ⟨fs4, fs :: dl.trace ++ fs2 :: conv.trace ++ [fs4], .error e, ⟨1, 1⟩⟩
        | .ok _ =>
          let fs4 := osReplace conv.fs env.outTmp cached
          let fs5 := if fsExists fs4 input_tmp then fsRemove fs4 input_tmp else fs4
          ⟨fs5, fs :: dl.trace ++ fs2 :: conv.trace ++ [fs4, fs5], .ok cached, ⟨1, 1⟩⟩

/-! ### `api_convert` (request handler) -/

inductive HttpResponse
  | badRequest (msg : String)
  | serverError (msg : String)
  | fileResponse (path : String)
deriving DecidableEq

/-- The `api_convert` route up to the coordinator: validate `fileId`, fetch
metadata (an error is returned as a 500 before the cache is consulted),
derive the key, serve a cache hit, otherwise return the outcome of the
deduplicated conversion (`obtainResult`, the value of `fut.result()`). -/
def api_convert (fileId : Option String) (metaFetch : Except String Meta)
    (now : Nat) (fs : FS) (obtainResult : Except String String) : HttpResponse :=
  match fileId with
  | none => .badRequest "fileId required"
  | some fid =>
    if fid = "" then .badRequest "fileId required"
    else
      match metaFetch with
      | .error e => .serverError e
      | .ok m =>
        let key := make_cache_key fid (some (metaTime m)) now
        let cached := cachePathOf key
        if fsExists fs cached then .fileResponse cached
        else
          match obtainResult with
          | .ok p => .fileResponse p
          | .error e => .serverError e

/-! ### Deduplication coordinator: small-step interleaving model

The model projects the process state of `api_convert` onto one cache key:
`cached` is whether the artifact for the key is installed, `ongoing` is the
key's entry in the `ongoing` dict (a future id), `futures` the states of
the futures created for the key, `submissions` counts `executor.submit`
calls, and `callers` the per-request control points inside `api_convert`
(after key derivation). Install-and-resolve of a successful worker is one
event, as the artifact is installed before `fut.result()` returns. -/

inductive FutStatus
  | running
  | done (r : Except String String)
deriving DecidableEq

inductive CallerPhase
  | start
  | atLock
  | waiting (futId : Nat)
  | cleanup (futId : Nat) (r : Except String String)
  | finished (r : Except String String)
deriving DecidableEq

structure CoordState where
  cached : Bool
  ongoing : Option Nat
  futures : List FutStatus
  submissions : Nat
  callers : List CallerPhase
deriving DecidableEq

/-- Atomic events of the interleaved execution: `checkCache i` is caller
`i`'s `cached_path.exists()` test, `lockStep i` its whole
`with ongoing_lock:` check-and-register block, `completeOk`/`completeErr`
the completion of a worker future (installing the artifact on success),
`awaitStep i` the return of `fut.result()`, and `cleanupStep i` the
`finally` block (`if fut.done(): ongoing.pop(cache_key, None)`). -/
inductive Ev
  | checkCache (i : Nat)
  | lockStep (i : Nat)
  | completeOk (f : Nat)
  | completeErr (f : Nat) (e : String)
  | awaitStep (i : Nat)
  | cleanupStep (i : Nat)
deriving DecidableEq

def setCaller (s : CoordState) (i : Nat) (c : CallerPhase) : CoordState :=
  { s with callers := s.callers.set i c }

/-- One interleaving step; an event that is not enabled leaves the state
unchanged. `p` is the artifact location for the key (`str(cached_mp3)`). -/
def step (p : String) (s : CoordState) (e : Ev) : CoordState :=
  match e with
  | .checkCache i =>
    match s.callers[i]? with
    | some .start =>
      if s.cached then setCaller s i (.finished (.ok p))
      else setCaller s i .atLock
    | _ => s
  | .lockStep i =>
    match s.callers[i]? with
    | some .atLock =>
      match s.ongoing with
      | some f => setCaller s i (.waiting f)
      | none =>
        { s with
            callers := s.callers.set i (.waiting s.futures.length),
            ongoing := some s.futures.length,
            futures := s.futures ++ [.running],
            submissions := s.submissions + 1 }
    | _ => s
  | .completeOk f =>
    if s.futures[f]? = some .running then
      { s with futures := s.futures.set f (.done (.ok p)), cached := true }
    else s
  | .completeErr f e =>
    if s.futures[f]? = some .running then
      { s with futures := s.futures.set f (.done (.error e)) }
    else s
  | .awaitStep i =>
    match s.callers[i]? with
    | some (.waiting f) =>
      match s.futures[f]? with
      | some (.done r) => setCaller s i (.cleanup f r)
      | _ => s
    | _ => s
  | .cleanupStep i =>
    match s.callers[i]? with
    | some (.cleanup f r) =>
      match s.futures[f]? with
      | some (.done _) =>
        { s with callers := s.callers.set i (.finished r), ongoing := none }
      | _ => setCaller s i (.finished r)
    | _ => s

def run (p : String) (s : CoordState) (evs : List Ev) : CoordState :=
  evs.foldl (step p) s

/-- Initial state: `K` requests for one not-yet-cached key, all about to check the store;
no entry, no futures. -/
def initState (K : Nat) : CoordState :=
  ⟨false, none, [], 0, List.replicate K .start⟩

def isCompletion : Ev → Bool
  | .completeOk _ => true
  | .completeErr _ _ => true
  | _ => false

def isLock : Ev → Bool
  | .lockStep _ => true
  | _ => false

def isFinished : CallerPhase → Bool
  | .finished _ => true
  | _ => false

def allFinished (s : CoordState) : Bool := s.callers.all isFinished

theorem mem_set_cases {α : Type} (l : List α) (i : Nat) (b a : α)
    (h : a ∈ l.set i b) : a ∈ l ∨ a = b := by
  induction l generalizing i with
  | nil => simp [List.set] at h
  | cons x xs ih =>
    cases i with
    | zero =>
      rcases List.mem_cons.mp h with h1 | h2
      · right; exact h1
      · left; exact List.mem_cons_of_mem x h2
    | succ j =>
      rcases List.mem_cons.mp h with h1 | h2
      · left; rw [h1]; exact List.mem_cons_self x xs
      · rcases ih j h2 with h3 | h3
        · left; exact List.mem_cons_of_mem x h3
        · right; exact h3

theorem exists_mem_of_length_pos {α : Type} (l : List α) (h : 0 < l.length) :
    ∃ x, x ∈ l := by
  cases l with
  | nil => simp at h
  | cons x xs => exact ⟨x, List.mem_cons_self x xs⟩

/-- Invariant of the coordinator while no future has completed yet:
the entry, once registered, stays; at most one submission has happened
and every caller is before the lock, or waiting on future `0`. -/
def Inv1 (K : Nat) (s : CoordState) : Prop :=
  s.cached = false ∧
  s.callers.length = K ∧
  s.submissions ≤ 1 ∧
  s.futures = List.replicate s.submissions .running ∧
  s.ongoing = (if s.submissions = 0 then none else some 0) ∧
  ∀ c ∈ s.callers, c = .start ∨ c = .atLock ∨ (c = .waiting 0 ∧ s.submissions = 1)

theorem inv1_init (K : Nat) : Inv1 K (initState K) := by
  refine ⟨rfl, by simp [initState], by simp [initState], rfl, rfl, ?_⟩
  intro c hc
  left
  exact (List.eq_of_mem_replicate hc)

theorem inv1_step (K : Nat) (p : String) (s : CoordState) (e : Ev)
    (hInv : Inv1 K s) (hc : isCompletion e = false) : Inv1 K (step p s e) := by
  obtain ⟨h1, h2, h3, h4, h5, h6⟩ := hInv
  cases e with
  | completeOk f => simp [isCompletion] at hc
  | completeErr f err => simp [isCompletion] at hc
  | checkCache i =>
    cases hci : s.callers[i]? with
    | none => simpa [step, hci] using ⟨h1, h2, h3, h4, h5, h6⟩
    | some c =>
      cases c with
      | start =>
        simp only [step, hci, h1, if_neg (by simp : ¬(false = true))]
        refine ⟨h1, by simpa [setCaller] using h2, h3, h4, h5, ?_⟩
        intro c hcm
        rcases mem_set_cases _ _ _ _ hcm with hm | hm
        · exact h6 c hm
        · right; left; exact hm
      | atLock => simpa [step, hci] using ⟨h1, h2, h3, h4, h5, h6⟩
      | waiting f => simpa [step, hci] using ⟨h1, h2, h3, h4, h5, h6⟩
      | cleanup f r => simpa [step, hci] using ⟨h1, h2, h3, h4, h5, h6⟩
      | finished r => simpa [step, hci] using ⟨h1, h2, h3, h4, h5, h6⟩
  | lockStep i =>
    cases hci : s.callers[i]? with
    | none => simpa [step, hci] using ⟨h1, h2, h3, h4, h5, h6⟩
    | some c =>
      cases c with
      | atLock =>
        cases hong : s.ongoing with
        | some f =>
          have hsub : s.submissions = 1 := by
            by_cases h0 : s.submissions = 0
            · rw [h0] at h5; simp at h5; rw [h5] at hong; exact absurd hong (by simp)
            · omega
          have hf0 : f = 0 := by
            rw [hsub] at h5; simp at h5; rw [h5] at hong
            exact (Option.some.injEq _ _ ▸ hong).symm
          simp only [step, hci, hong]
          refine ⟨h1, by simpa [setCaller] using h2, h3, h4, h5, ?_⟩
          intro c hcm
          rcases mem_set_cases _ _ _ _ hcm with hm | hm
          · exact h6 c hm
          · right; right; rw [hm, hf0]; exact ⟨rfl, hsub⟩
        | none =>
          have hsub : s.submissions = 0 := by
            by_cases h0 : s.submissions = 0
            · exact h0
            · rw [if_neg h0] at h5; rw [h5] at hong; exact absurd hong (by simp)
          have hfut : s.futures = [] := by rw [h4, hsub]; rfl
          simp only [step, hci, hong]
          refine ⟨h1, by simpa using h2, by show s.submissions + 1 ≤ 1; omega, ?_, ?_, ?_⟩
          · simp [hfut, hsub]
          · simp [hfut]
          · intro c hcm
            rcases mem_set_cases _ _ _ _ hcm with hm | hm
            · rcases h6 c hm with h' | h' | h'
              · left; exact h'
              · right; left; exact h'
              · exact absurd h'.2 (by omega)
            · right; right; simp [hm, hfut, hsub]
      | start => simpa [step, hci] using ⟨h1, h2, h3, h4, h5, h6⟩
      | waiting f => simpa [step, hci] using ⟨h1, h2, h3, h4, h5, h6⟩
      | cleanup f r => simpa [step, hci] using ⟨h1, h2, h3, h4, h5, h6⟩
      | finished r => simpa [step, hci] using ⟨h1, h2, h3, h4, h5, h6⟩
  | awaitStep i =>
    cases hci : s.callers[i]? with
    | none => simpa [step, hci] using ⟨h1, h2, h3, h4, h5, h6⟩
    | some c =>
      cases c with
      | waiting f =>
        cases hf : s.futures[f]? with
        | none => simpa [step, hci, hf] using ⟨h1, h2, h3, h4, h5, h6⟩
        | some fs =>
          cases fs with
          | running => simpa [step, hci, hf] using ⟨h1, h2, h3, h4, h5, h6⟩
          | done r =>
            exfalso
            have hmem : FutStatus.done r ∈ s.futures := List.getElem?_mem hf
            rw [h4] at hmem
            exact absurd (List.eq_of_mem_replicate hmem) (by simp)
      | start => simpa [step, hci] using ⟨h1, h2, h3, h4, h5, h6⟩
      | atLock => simpa [step, hci] using ⟨h1, h2, h3, h4, h5, h6⟩
      | cleanup f r => simpa [step, hci] using ⟨h1, h2, h3, h4, h5, h6⟩
      | finished r => simpa [step, hci] using ⟨h1, h2, h3, h4, h5, h6⟩
  | cleanupStep i =>
    cases hci : s.callers[i]? with
    | none => simpa [step, hci] using ⟨h1, h2, h3, h4, h5, h6⟩
    | some c =>
      cases c with
      | cleanup f r =>
        exfalso
        have hmem : CallerPhase.cleanup f r ∈ s.callers :=
          List.getElem?_mem hci
        rcases h6 _ hmem with h' | h' | h'
        · exact absurd h' (by simp)
        · exact absurd h' (by simp)
        · exact absurd h'.1 (by simp)
      | start => simpa [step, hci] using ⟨h1, h2, h3, h4, h5, h6⟩
      | atLock => simpa [step, hci] using ⟨h1, h2, h3, h4, h5, h6⟩
      | waiting f => simpa [step, hci] using ⟨h1, h2, h3, h4, h5, h6⟩
      | finished r => simpa [step, hci] using ⟨h1, h2, h3, h4, h5, h6⟩

theorem inv1_run (K : Nat) (p : String) (evs : List Ev) (s : CoordState)
    (hInv : Inv1 K s) (hnc : ∀ e ∈ evs, isCompletion e = false) :
    Inv1 K (run p s evs) := by
  induction evs generalizing s with
  | nil => exact hInv
  | cons e rest ih =>
    exact ih (step p s e)
      (inv1_step K p s e hInv (hnc e (List.mem_cons_self e rest)))
      (fun e' he' => hnc e' (List.mem_cons_of_mem e he'))

/-- Invariant once completions may occur, provided no further
check-and-register step happens: at most the one submitted future exists,
it resolves at most once, and every outcome observed by a caller is that
future's single result (or the cache hit it installed). -/
def Inv2 (p : String) (K : Nat) (s : CoordState) : Prop :=
  s.callers.length = K ∧
  ((s.submissions = 0 ∧ s.cached = false ∧ s.futures = [] ∧ s.ongoing = none ∧
      ∀ c ∈ s.callers, c = CallerPhase.start ∨ c = CallerPhase.atLock)
   ∨ (s.submissions = 1 ∧ s.cached = false ∧ s.futures = [.running] ∧ s.ongoing = some 0 ∧
      ∀ c ∈ s.callers, c = CallerPhase.start ∨ c = CallerPhase.atLock ∨ c = CallerPhase.waiting 0)
   ∨ (s.submissions = 1 ∧ ∃ r, s.futures = [.done r] ∧
      (s.ongoing = none ∨ s.ongoing = some 0) ∧
      (s.cached = true → r = .ok p) ∧ (s.cached = false → ∃ e, r = .error e) ∧
      ∀ c ∈ s.callers, c = CallerPhase.start ∨ c = CallerPhase.atLock ∨
        c = CallerPhase.waiting 0 ∨ c = CallerPhase.cleanup 0 r ∨ c = CallerPhase.finished r))

theorem inv2_of_inv1 (p : String) (K : Nat) (s : CoordState) (hInv : Inv1 K s) :
    Inv2 p K s := by
  obtain ⟨h1, h2, h3, h4, h5, h6⟩ := hInv
  refine ⟨h2, ?_⟩
  by_cases h0 : s.submissions = 0
  · left
    refine ⟨h0, h1, by rw [h4, h0]; rfl, by rw [h5, if_pos h0], ?_⟩
    intro c hc
    rcases h6 c hc with h' | h' | h'
    · left; exact h'
    · right; exact h'
    · exact absurd h'.2 (by omega)
  · have hs1 : s.submissions = 1 := by omega
    right; left
    refine ⟨hs1, h1, by rw [h4, hs1]; rfl, by rw [h5, if_neg h0], ?_⟩
    intro c hc
    rcases h6 c hc with h' | h' | h'
    · left; exact h'
    · right; left; exact h'
    · right; right; exact h'.1

theorem inv2_step (p : String) (K : Nat) (s : CoordState) (e : Ev)
    (hInv : Inv2 p K s) (hl : isLock e = false) : Inv2 p K (step p s e) := by
  obtain ⟨hlen, hdisj⟩ := hInv
  cases e with
  | lockStep i => simp [isLock] at hl
  | checkCache i =>
    cases hci : s.callers[i]? with
    | none => exact ⟨by simpa [step, hci] using hlen, by simpa [step, hci] using hdisj⟩
    | some c =>
      cases c with
      | start =>
        rcases hdisj with ⟨ha, hb, hc', hd, he⟩ | ⟨ha, hb, hc', hd, he⟩ |
            ⟨ha, r, hb, hc', hd, he, hf⟩
        · simp only [step, hci, hb, if_neg (by simp : ¬(false = true))]
          refine ⟨by simpa [setCaller] using hlen, Or.inl ⟨ha, hb, hc', hd, ?_⟩⟩
          intro c hcm
          rcases mem_set_cases _ _ _ _ hcm with hm | hm
          · exact he c hm
          · right; exact hm
        · simp only [step, hci, hb, if_neg (by simp : ¬(false = true))]
          refine ⟨by simpa [setCaller] using hlen, Or.inr (Or.inl ⟨ha, hb, hc', hd, ?_⟩)⟩
          intro c hcm
          rcases mem_set_cases _ _ _ _ hcm with hm | hm
          · exact he c hm
          · right; left; exact hm
        · cases hcb : s.cached with
          | true =>
            have hr : r = .ok p := hd hcb
            simp only [step, hci, hcb, if_pos rfl]
            refine ⟨by simpa [setCaller] using hlen,
              Or.inr (Or.inr ⟨ha, r, hb, hc', hd, he, ?_⟩)⟩
            intro c hcm
            rcases mem_set_cases _ _ _ _ hcm with hm | hm
            · exact hf c hm
            · right; right; right; right; rw [hm, hr]
          | false =>
            simp only [step, hci, hcb, if_neg (by simp : ¬(false = true))]
            refine ⟨by simpa [setCaller] using hlen,
              Or.inr (Or.inr ⟨ha, r, hb, hc', hd, he, ?_⟩)⟩
            intro c hcm
            rcases mem_set_cases _ _ _ _ hcm with hm | hm
            · exact hf c hm
            · right; left; exact hm
      | atLock => exact ⟨by simpa [step, hci] using hlen, by simpa [step, hci] using hdisj⟩
      | waiting f => exact ⟨by simpa [step, hci] using hlen, by simpa [step, hci] using hdisj⟩
      | cleanup f r => exact ⟨by simpa [step, hci] using hlen, by simpa [step, hci] using hdisj⟩
      | finished r => exact ⟨by simpa [step, hci] using hlen, by simpa [step, hci] using hdisj⟩
  | completeOk f =>
    rcases hdisj with ⟨ha, hb, hc', hd, he⟩ | ⟨ha, hb, hc', hd, he⟩ |
        ⟨ha, r, hb, hc', hd, he, hf⟩
    · have hnone : s.futures[f]? = none := by rw [hc']; simp
      simp only [step, hnone]
      exact ⟨by simpa using hlen, Or.inl ⟨ha, hb, hc', hd, by simpa using he⟩⟩
    · cases f with
      | zero =>
        have hrun : s.futures[0]? = some FutStatus.running := by rw [hc']; rfl
        simp only [step, hrun, if_pos rfl]
        refine ⟨by simpa using hlen, Or.inr (Or.inr ⟨ha, Except.ok p, ?_, ?_, ?_, ?_, ?_⟩)⟩
        · rw [hc']; rfl
        · right; exact hd
        · intro _; rfl
        · intro hfalse; simp at hfalse
        · intro c hcm
          rcases he c hcm with h' | h' | h'
          · left; exact h'
          · right; left; exact h'
          · right; right; left; exact h'
      | succ g =>
        have hnone : s.futures[g+1]? = none := by rw [hc']; rfl
        simp only [step, hnone]
        exact ⟨by simpa using hlen,
          Or.inr (Or.inl ⟨ha, hb, hc', hd, by simpa using he⟩)⟩
    · have hnr : ¬(s.futures[f]? = some FutStatus.running) := by
        rw [hb]
        cases f with
        | zero => simp
        | succ g => simp
      simp only [step, if_neg hnr]
      exact ⟨hlen, Or.inr (Or.inr ⟨ha, r, hb, hc', hd, he, hf⟩)⟩
  | completeErr f err =>
    rcases hdisj with ⟨ha, hb, hc', hd, he⟩ | ⟨ha, hb, hc', hd, he⟩ |
        ⟨ha, r, hb, hc', hd, he, hf⟩
    · have hnone : s.futures[f]? = none := by rw [hc']; simp
      simp only [step, hnone]
      exact ⟨by simpa using hlen, Or.inl ⟨ha, hb, hc', hd, by simpa using he⟩⟩
    · cases f with
      | zero =>
        have hrun : s.futures[0]? = some FutStatus.running := by rw [hc']; rfl
        simp only [step, hrun, if_pos rfl]
        refine ⟨by simpa using hlen,
          Or.inr (Or.inr ⟨ha, Except.error err, ?_, ?_, ?_, ?_, ?_⟩)⟩
        · rw [hc']; rfl
        · right; exact hd
        · intro hfalse; rw [hb] at hfalse; simp at hfalse
        · intro _; exact ⟨err, rfl⟩
        · intro c hcm
          rcases he c hcm with h' | h' | h'
          · left; exact h'
          · right; left; exact h'
          · right; right; left; exact h'
      | succ g =>
        have hnone : s.futures[g+1]? = none := by rw [hc']; rfl
        simp only [step, hnone]
        exact ⟨by simpa using hlen,
          Or.inr (Or.inl ⟨ha, hb, hc', hd, by simpa using he⟩)⟩
    · have hnr : ¬(s.futures[f]? = some FutStatus.running) := by
        rw [hb]
        cases f with
        | zero => simp
        | succ g => simp
      simp only [step, if_neg hnr]
      exact ⟨hlen, Or.inr (Or.inr ⟨ha, r, hb, hc', hd, he, hf⟩)⟩
  | awaitStep i =>
    cases hci : s.callers[i]? with
    | none => exact ⟨by simpa [step, hci] using hlen, by simpa [step, hci] using hdisj⟩
    | some c =>
      cases c with
      | waiting f =>
        have hmem : CallerPhase.waiting f ∈ s.callers := List.getElem?_mem hci
        rcases hdisj with ⟨ha, hb, hc', hd, he⟩ | ⟨ha, hb, hc', hd, he⟩ |
            ⟨ha, r, hb, hc', hd, he, hf⟩
        · rcases he _ hmem with h' | h' <;> simp at h'
        · have hf0 : f = 0 := by
            rcases he _ hmem with h' | h' | h'
            · simp at h'
            · simp at h'
            · exact (CallerPhase.waiting.injEq _ _ ▸ h')
          have hrun : s.futures[f]? = some FutStatus.running := by
            rw [hf0, hc']; rfl
          simp only [step, hci, hrun]
          exact ⟨by simpa using hlen,
            Or.inr (Or.inl ⟨ha, hb, hc', hd, by simpa using he⟩)⟩
        · have hf0 : f = 0 := by
            rcases hf _ hmem with h' | h' | h' | h' | h'
            · simp at h'
            · simp at h'
            · exact (CallerPhase.waiting.injEq _ _ ▸ h')
            · simp at h'
            · simp at h'
          have hdone : s.futures[f]? = some (FutStatus.done r) := by
            rw [hf0, hb]; rfl
          simp only [step, hci, hdone]
          refine ⟨by simpa [setCaller] using hlen,
            Or.inr (Or.inr ⟨ha, r, hb, hc', hd, he, ?_⟩)⟩
          intro c hcm
          rcases mem_set_cases _ _ _ _ hcm with hm | hm
          · exact hf c hm
          · right; right; right; left; rw [hm, hf0]
      | start => exact ⟨by simpa [step, hci] using hlen, by simpa [step, hci] using hdisj⟩
      | atLock => exact ⟨by simpa [step, hci] using hlen, by simpa [step, hci] using hdisj⟩
      | cleanup f r => exact ⟨by simpa [step, hci] using hlen, by simpa [step, hci] using hdisj⟩
      | finished r => exact ⟨by simpa [step, hci] using hlen, by simpa [step, hci] using hdisj⟩
  | cleanupStep i =>
    cases hci : s.callers[i]? with
    | none => exact ⟨by simpa [step, hci] using hlen, by simpa [step, hci] using hdisj⟩
    | some c =>
      cases c with
      | cleanup f r' =>
        have hmem : CallerPhase.cleanup f r' ∈ s.callers := List.getElem?_mem hci
        rcases hdisj with ⟨ha, hb, hc', hd, he⟩ | ⟨ha, hb, hc', hd, he⟩ |
            ⟨ha, r, hb, hc', hd, he, hf⟩
        · rcases he _ hmem with h' | h' <;> simp at h'
        · rcases he _ hmem with h' | h' | h' <;> simp at h'
        · have hfr : f = 0 ∧ r' = r := by
            rcases hf _ hmem with h' | h' | h' | h' | h'
            · simp at h'
            · simp at h'
            · simp at h'
            · exact ⟨(CallerPhase.cleanup.injEq _ _ _ _ ▸ h').1,
                (CallerPhase.cleanup.injEq _ _ _ _ ▸ h').2⟩
            · simp at h'
          have hdone : s.futures[f]? = some (FutStatus.done r) := by
            rw [hfr.1, hb]; rfl
          simp only [step, hci, hdone]
          refine ⟨by simpa [setCaller] using hlen,
            Or.inr (Or.inr ⟨ha, r, hb, Or.inl rfl, hd, he, ?_⟩)⟩
          intro c hcm
          rcases mem_set_cases _ _ _ _ hcm with hm | hm
          · exact hf c hm
          · right; right; right; right; rw [hm, hfr.2]
      | start => exact ⟨by simpa [step, hci] using hlen, by simpa [step, hci] using hdisj⟩
      | atLock => exact ⟨by simpa [step, hci] using hlen, by simpa [step, hci] using hdisj⟩
      | waiting f => exact ⟨by simpa [step, hci] using hlen, by simpa [step, hci] using hdisj⟩
      | finished r => exact ⟨by simpa [step, hci] using hlen, by simpa [step, hci] using hdisj⟩

theorem inv2_run (p : String) (K : Nat) (evs : List Ev) (s : CoordState)
    (hInv : Inv2 p K s) (hnl : ∀ e ∈ evs, isLock e = false) :
    Inv2 p K (run p s evs) := by
  induction evs generalizing s with
  | nil => exact hInv
  | cons e rest ih =>
    exact ih (step p s e)
      (inv2_step p K s e hInv (hnl e (List.mem_cons_self e rest)))
      (fun e' he' => hnl e' (List.mem_cons_of_mem e he'))

theorem run_append (p : String) (s : CoordState) (t1 t2 : List Ev) :
    run p s (t1 ++ t2) = run p (run p s t1) t2 := by
  simp [run, List.foldl_append]

/-- C1 (amended): if every check-and-register step happens before any
completion (the requests are concurrent with the in-flight conversion),
then once all callers have finished, the work was submitted exactly once
and every caller received the same outcome. -/
theorem c1_single_flight (p : String) (K : Nat) (t1 t2 : List Ev)
    (hK : 1 ≤ K)
    (h1 : ∀ e ∈ t1, isCompletion e = false)
    (h2 : ∀ e ∈ t2, isLock e = false)
    (hfin : allFinished (run p (initState K) (t1 ++ t2)) = true) :
    (run p (initState K) (t1 ++ t2)).submissions = 1 ∧
    ∃ r, ∀ c ∈ (run p (initState K) (t1 ++ t2)).callers, c = CallerPhase.finished r := by
  have hs1 : Inv1 K (run p (initState K) t1) := inv1_run K p t1 _ (inv1_init K) h1
  have hs2 : Inv2 p K (run p (initState K) (t1 ++ t2)) := by
    rw [run_append]
    exact inv2_run p K t2 _ (inv2_of_inv1 p K _ hs1) h2
  obtain ⟨hlen, hdisj⟩ := hs2
  have hfin' : ∀ c ∈ (run p (initState K) (t1 ++ t2)).callers, isFinished c = true := by
    intro c hc
    exact List.all_eq_true.mp hfin c hc
  rcases hdisj with ⟨_, _, _, _, he⟩ | ⟨_, _, _, _, he⟩ | ⟨ha, r, _, _, _, _, hf⟩
  · exfalso
    obtain ⟨x, hx⟩ := exists_mem_of_length_pos _ (by rw [hlen]; omega)
    rcases he x hx with h' | h' <;>
      · rw [h'] at hx
        have := hfin' _ hx
        simp [isFinished] at this
  · exfalso
    obtain ⟨x, hx⟩ := exists_mem_of_length_pos _ (by rw [hlen]; omega)
    rcases he x hx with h' | h' | h' <;>
      · rw [h'] at hx
        have := hfin' _ hx
        simp [isFinished] at this
  · refine ⟨ha, r, ?_⟩
    intro c hc
    rcases hf c hc with h' | h' | h' | h' | h'
    · exact absurd (h' ▸ hfin' c hc) (by simp [isFinished])
    · exact absurd (h' ▸ hfin' c hc) (by simp [isFinished])
    · exact absurd (h' ▸ hfin' c hc) (by simp [isFinished])
    · exact absurd (h' ▸ hfin' c hc) (by simp [isFinished])
    · exact h'

def c1WitT1 : List Ev :=
  [.checkCache 0, .lockStep 0, .checkCache 1, .lockStep 1]

def c1WitT2 : List Ev :=
  [.completeErr 0 "boom", .awaitStep 0, .cleanupStep 0, .awaitStep 1, .cleanupStep 1]

/-- C1 witness: two concurrent callers, one submission, both receive the
single failure. -/
theorem c1_single_flight_witness :
    (run "p" (initState 2) (c1WitT1 ++ c1WitT2)).submissions = 1 ∧
    ∃ r, ∀ c ∈ (run "p" (initState 2) (c1WitT1 ++ c1WitT2)).callers,
      c = CallerPhase.finished r :=
  c1_single_flight "p" 2 c1WitT1 c1WitT2 (by decide) (by decide) (by decide) (by decide)

/-- The stale-cleanup interleaving: caller 0's `finally` block runs after a
later caller has already registered a fresh in-flight future for the same
key, and `ongoing.pop(cache_key, None)` (guarded only by the stale
future's `done()`) removes the newer registration, after which caller 3
submits a third execution while the second is still in flight. -/
def c1Trace : List Ev :=
  [.checkCache 0, .lockStep 0, .completeErr 0 "e1", .awaitStep 0,
   .checkCache 1, .lockStep 1, .awaitStep 1, .cleanupStep 1,
   .checkCache 2, .lockStep 2,
   .cleanupStep 0,
   .checkCache 3, .lockStep 3]

/-- C1 counterexample: after `c1Trace`, futures 1 and 2 are running at the
same time for the same key — a second execution of the work was scheduled
while one was in flight, refuting the claim as stated. -/
theorem c1_counterexample :
    (run "p" (initState 4) c1Trace).futures[1]? = some FutStatus.running ∧
    (run "p" (initState 4) c1Trace).futures[2]? = some FutStatus.running ∧
    (run "p" (initState 4) c1Trace).submissions = 3 := by
  decide

/-- C2 (amended): a waiter's `finally` block after completion removes the
key's entry from the table; and a call that begins once the entry is gone
and no artifact is cached re-evaluates from Idle, scheduling the work
function again (a fresh running future, one more submission). -/
theorem c2_completion_then_idle (p : String) :
    (∀ s : CoordState, ∀ i f : Nat, ∀ r rd : Except String String,
      s.callers[i]? = some (CallerPhase.cleanup f r) →
      s.futures[f]? = some (FutStatus.done rd) →
      (step p s (Ev.cleanupStep i)).ongoing = none) ∧
    (∀ s : CoordState, ∀ j : Nat,
      s.ongoing = none → s.cached = false → s.callers[j]? = some CallerPhase.start →
      (run p s [Ev.checkCache j, Ev.lockStep j]).submissions = s.submissions + 1 ∧
      (run p s [Ev.checkCache j, Ev.lockStep j]).futures
        = s.futures ++ [FutStatus.running]) := by
  constructor
  · intro s i f r rd hcl hdone
    simp [step, hcl, hdone]
  · intro s j hong hcached hcj
    have hjlt : j < s.callers.length := by
      rcases List.getElem?_eq_some_iff.mp hcj with ⟨h, _⟩
      exact h
    have hstep1 : step p s (Ev.checkCache j) = setCaller s j CallerPhase.atLock := by
      simp [step, hcj, hcached]
    have hcj2 : (s.callers.set j CallerPhase.atLock)[j]? = some CallerPhase.atLock :=
      List.getElem?_set_self hjlt
    have hstep2 :
        step p (setCaller s j CallerPhase.atLock) (Ev.lockStep j)
          = { setCaller s j CallerPhase.atLock with
                callers := (setCaller s j CallerPhase.atLock).callers.set j
                  (CallerPhase.waiting s.futures.length),
                ongoing := some s.futures.length,
                futures := s.futures ++ [FutStatus.running],
                submissions := s.submissions + 1 } := by
      simp [step, hcj2, setCaller, hong]
    show (step p (step p s (Ev.checkCache j)) (Ev.lockStep j)).submissions
        = s.submissions + 1 ∧
      (step p (step p s (Ev.checkCache j)) (Ev.lockStep j)).futures
        = s.futures ++ [FutStatus.running]
    rw [hstep1, hstep2]
    exact ⟨rfl, rfl⟩

def c2WitCleanupState : CoordState :=
  ⟨false, some 0, [FutStatus.done (Except.error "boom")], 1,
    [CallerPhase.cleanup 0 (Except.error "boom")]⟩

def c2WitIdleState : CoordState :=
  ⟨false, none, [], 1, [CallerPhase.start]⟩

/-- C2 witness: concrete instances of both amended conclusions. -/
theorem c2_completion_then_idle_witness :
    (step "p" c2WitCleanupState (Ev.cleanupStep 0)).ongoing = none ∧
    (run "p" c2WitIdleState [Ev.checkCache 0, Ev.lockStep 0]).submissions
      = c2WitIdleState.submissions + 1 :=
  ⟨(c2_completion_then_idle "p").1 c2WitCleanupState 0 0
      (Except.error "boom") (Except.error "boom") rfl rfl,
    ((c2_completion_then_idle "p").2 c2WitIdleState 0 rfl rfl rfl).1⟩

/-- The completion-to-cleanup window: the worker fails, and a second
request arrives entirely after the completion but before the first
caller's `finally` block has removed the entry. -/
def c2Trace : List Ev :=
  [.checkCache 0, .lockStep 0, .completeErr 0 "boom",
   .checkCache 1, .lockStep 1, .awaitStep 1, .cleanupStep 1]

/-- C2 counterexample: caller 1 runs entirely after the work completed with
a failure, yet the work is not invoked again (still one submission) and
caller 1 receives the replayed failure from the coordinator — it did not
start from Idle. -/
theorem c2_counterexample :
    (run "p" (initState 2) c2Trace).submissions = 1 ∧
    (run "p" (initState 2) c2Trace).callers[1]?
      = some (CallerPhase.finished (Except.error "boom")) ∧
    (run "p" (initState 2) c2Trace).cached = false := by
  decide

/-- C3 counterexample: two distinct timestamps whose colon-to-dash
sanitizations coincide produce the same cache key, refuting the claim
that any two distinct timestamps map to distinct keys. -/
theorem c3_counterexample :
    make_cache_key "f" (some "a:b") 0 = make_cache_key "f" (some "a-b") 0 ∧
    "a:b" ≠ "a-b" := by
  constructor
  · decide
  · decide

/-- C3 (amended): key derivation is deterministic — for a present
timestamp it does not depend on the wall clock; and distinct non-empty
timestamps yield distinct keys whenever neither contains a dash (so their
sanitized forms cannot collide). Distinctness fails in general exactly
when the sanitized forms coincide, as in the counterexample. -/
theorem c3_key_deterministic_distinct :
    (∀ id t : String, ∀ now1 now2 : Nat, t ≠ "" →
      make_cache_key id (some t) now1 = make_cache_key id (some t) now2) ∧
    (∀ id t1 t2 : String, ∀ now1 now2 : Nat, t1 ≠ t2 → t1 ≠ "" → t2 ≠ "" →
      noDash t1 → noDash t2 →
      make_cache_key id (some t1) now1 ≠ make_cache_key id (some t2) now2) := by
  constructor
  · intro id t n1 n2 ht
    simp [make_cache_key, ht]
  · intro id t1 t2 n1 n2 hne h1 h2 hd1 hd2 heq
    simp only [make_cache_key, if_neg h1, if_neg h2] at heq
    exact hne (sanitizeTime_inj t1 t2 hd1 hd2 (string_append_left_cancel _ _ _ heq))

/-- C3 witness: both amended conclusions at concrete inputs. -/
theorem c3_key_deterministic_distinct_witness :
    make_cache_key "f" (some "a") 0 = make_cache_key "f" (some "a") 1 ∧
    make_cache_key "f" (some "a") 0 ≠ make_cache_key "f" (some "b") 1 :=
  ⟨c3_key_deterministic_distinct.1 "f" "a" 0 1 (by decide),
    c3_key_deterministic_distinct.2 "f" "a" "b" 0 1 (by decide) (by decide) (by decide)
      (by decide) (by decide)⟩

/-- C8: with an absent timestamp (Python `None`, or the empty string the
route passes when both metadata fields are missing), the key substitutes
the current wall-clock seconds as the timestamp component, and calls at
distinct seconds get distinct keys. -/
theorem c8_absent_timestamp_key (file_id : String) (now1 now2 : Nat) :
    make_cache_key file_id none now1 = file_id ++ "_" ++ decimalStr now1 ∧
    make_cache_key file_id (some "") now1 = file_id ++ "_" ++ decimalStr now1 ∧
    (now1 ≠ now2 →
      make_cache_key file_id none now1 ≠ make_cache_key file_id none now2) := by
  refine ⟨rfl, by simp [make_cache_key], ?_⟩
  intro hne heq
  exact hne (decimalStr_injective _ _ (string_append_left_cancel _ _ _ heq))

/-- C8 witness: the substitution and the per-second uniqueness at concrete
inputs. -/
theorem c8_absent_timestamp_key_witness :
    make_cache_key "abc" none 5 = "abc" ++ "_" ++ decimalStr 5 ∧
    make_cache_key "abc" none 5 ≠ make_cache_key "abc" none 7 :=
  ⟨(c8_absent_timestamp_key "abc" 5 7).1,
    (c8_absent_timestamp_key "abc" 5 7).2.2 (by decide)⟩

def isChunk : FetchEv → Bool
  | .chunk _ => true
  | .fail _ => false

theorem fsExists_set (fs : FS) (p : String) (c : Content) :
    fsExists (fsSet fs p c) p = true := by
  simp [fsExists, fsGet_set_self]

theorem fsGet_removeIfExists_ne (g : FS) (p q : String) (h : p ≠ q) :
    fsGet (if fsExists g p then fsRemove g p else g) q = fsGet g q := by
  by_cases he : fsExists g p
  · simp [he, fsGet_remove_ne g p q h]
  · simp [he]

theorem downloadGo_ok_name (tmp : String) :
    ∀ stream : List FetchEv, ∀ fs : FS, ∀ w : Nat, ∀ v : String,
      (downloadGo tmp fs w stream).result = .ok v → v = tmp := by
  intro stream
  induction stream with
  | nil =>
    intro fs w v h
    simp [downloadGo] at h
    exact h.symm
  | cons ev rest ih =>
    intro fs w v h
    cases ev with
    | chunk m =>
      simp only [downloadGo] at h
      exact ih _ _ v h
    | fail e => simp [downloadGo] at h

theorem downloadGo_all_chunks_ok (tmp : String) :
    ∀ stream : List FetchEv, ∀ fs : FS, ∀ w : Nat,
      (∀ ev ∈ stream, isChunk ev = true) →
      (downloadGo tmp fs w stream).result = .ok tmp := by
  intro stream
  induction stream with
  | nil => intro fs w _; rfl
  | cons ev rest ih =>
    intro fs w hall
    cases ev with
    | chunk m =>
      simp only [downloadGo]
      exact ih _ _ (fun e he => hall e (List.mem_cons_of_mem _ he))
    | fail e =>
      exact absurd (hall _ (List.mem_cons_self _ _)) (by simp [isChunk])

theorem downloadGo_preserves (tmp q : String) (hne : tmp ≠ q) :
    ∀ stream : List FetchEv, ∀ fs : FS, ∀ w : Nat,
      fsGet (downloadGo tmp fs w stream).fs q = fsGet fs q ∧
      ∀ fs' ∈ (downloadGo tmp fs w stream).trace, fsGet fs' q = fsGet fs q := by
  intro stream
  induction stream with
  | nil =>
    intro fs w
    exact ⟨rfl, by intro fs' h; simp [downloadGo] at h⟩
  | cons ev rest ih =>
    intro fs w
    cases ev with
    | chunk m =>
      have hset : fsGet (fsSet fs tmp (.part (w + m))) q = fsGet fs q :=
        fsGet_set_ne fs tmp q _ hne
      obtain ⟨ihf, iht⟩ := ih (fsSet fs tmp (.part (w + m))) (w + m)
      refine ⟨by simp only [downloadGo]; rw [ihf, hset], ?_⟩
      intro fs' h
      simp only [downloadGo] at h
      rcases List.mem_cons.mp h with h' | h'
      · rw [h', hset]
      · rw [iht fs' h', hset]
    | fail e =>
      exact ⟨rfl, by intro fs' h; simp [downloadGo] at h⟩

theorem downloadGo_keeps_tmp (tmp : String) :
    ∀ stream : List FetchEv, ∀ fs : FS, ∀ w : Nat,
      fsExists fs tmp = true →
      fsExists (downloadGo tmp fs w stream).fs tmp = true := by
  intro stream
  induction stream with
  | nil => intro fs w h; exact h
  | cons ev rest ih =>
    intro fs w h
    cases ev with
    | chunk m =>
      simp only [downloadGo]
      exact ih _ _ (fsExists_set fs tmp _)
    | fail e => exact h

/-- C6: whenever ffmpeg exits non-zero, `convert_awb_to_mp3` fails with the
tool's stderr as the message, and any partial output file at the output
path has been deleted before the error is raised. -/
theorem c6_transcode_failure (fs : FS) (output_path : String) (proc : ProcResult)
    (produced : Option Content) (h : proc.returncode ≠ 0) :
    (convert_awb_to_mp3 fs output_path proc produced).result
      = Except.error proc.stderr ∧
    fsExists (convert_awb_to_mp3 fs output_path proc produced).fs output_path = false := by
  cases produced with
  | none =>
    constructor
    · simp [convert_awb_to_mp3, h]
    · by_cases he : fsExists fs output_path
      · have he' : (fsGet fs output_path).isSome = true := he
        simp [convert_awb_to_mp3, h, fsExists, he', fsGet_remove_self]
      · simp [convert_awb_to_mp3, h, he]
  | some c =>
    constructor
    · simp [convert_awb_to_mp3, h]
    · by_cases he : fsExists (fsSet fs output_path c) output_path
      · have he' : (fsGet (fsSet fs output_path c) output_path).isSome = true := he
        simp [convert_awb_to_mp3, h, fsExists, he', fsGet_remove_self]
      · exact absurd (fsExists_set fs output_path c) he

/-- C6 witness: a failing run with a partial output on disk. -/
theorem c6_transcode_failure_witness :
    (convert_awb_to_mp3 [] "out.mp3" ⟨1, "bad input"⟩ (some (.part 3))).result
      = Except.error "bad input" ∧
    fsExists (convert_awb_to_mp3 [] "out.mp3" ⟨1, "bad input"⟩ (some (.part 3))).fs
      "out.mp3" = false :=
  c6_transcode_failure [] "out.mp3" ⟨1, "bad input"⟩ (some (.part 3)) (by decide)

/-- C5 counterexample: a mid-stream failure after one written chunk fails
with the network error, but the partially written scratch file is still on
disk — the claim that no scratch file is left behind is false. -/
theorem c5_counterexample :
    (download_drive_file_to_temp [] "in.tmp" (.ok ())
        [.chunk 5, .fail "network"]).result = Except.error "network" ∧
    fsExists (download_drive_file_to_temp [] "in.tmp" (.ok ())
        [.chunk 5, .fail "network"]).fs "in.tmp" = true := by
  decide

/-- C5 (amended): a failure in the initial request or status check yields
the fetch error with no scratch file created (the filesystem is
untouched); a failure while streaming yields the fetch error, but the
partially written scratch file is only closed, not removed — it remains on
disk. -/
theorem c5_fetch_failure_cleanup (fs : FS) (tmp e : String) :
    (∀ stream : List FetchEv,
      (download_drive_file_to_temp fs tmp (.error e) stream).fs = fs ∧
      (download_drive_file_to_temp fs tmp (.error e) stream).result
        = Except.error e) ∧
    (∀ pre rest : List FetchEv, (∀ ev ∈ pre, isChunk ev = true) →
      (download_drive_file_to_temp fs tmp (.ok ())
          (pre ++ FetchEv.fail e :: rest)).result = Except.error e ∧
      fsExists (download_drive_file_to_temp fs tmp (.ok ())
          (pre ++ FetchEv.fail e :: rest)).fs tmp = true) := by
  constructor
  · intro stream
    exact ⟨rfl, rfl⟩
  · intro pre rest hall
    have hfail : ∀ fs0 : FS, ∀ w : Nat, ∀ pre0 : List FetchEv,
        (∀ ev ∈ pre0, isChunk ev = true) → fsExists fs0 tmp = true →
        (downloadGo tmp fs0 w (pre0 ++ FetchEv.fail e :: rest)).result = Except.error e ∧
        fsExists (downloadGo tmp fs0 w (pre0 ++ FetchEv.fail e :: rest)).fs tmp = true := by
      intro fs0 w pre0
      induction pre0 generalizing fs0 w with
      | nil => intro _ hex; exact ⟨rfl, hex⟩
      | cons ev pre1 ih =>
        intro hall0 hex
        cases ev with
        | chunk m =>
          simp only [List.cons_append, downloadGo]
          exact ih (fsSet fs0 tmp (.part (w + m))) (w + m)
            (fun ev' he' => hall0 ev' (List.mem_cons_of_mem _ he'))
            (fsExists_set fs0 tmp _)
        | fail e0 =>
          exact absurd (hall0 _ (List.mem_cons_self _ _)) (by simp [isChunk])
    simp only [download_drive_file_to_temp]
    exact hfail (fsSet fs tmp (.part 0)) 0 pre hall (fsExists_set fs tmp _)

/-- C5 witness: the amended conclusions at concrete inputs. -/
theorem c5_fetch_failure_cleanup_witness :
    (download_drive_file_to_temp [] "in.tmp" (.error "404") [.chunk 1]).fs = [] ∧
    (download_drive_file_to_temp [] "in.tmp" (.ok ())
        ([.chunk 2] ++ FetchEv.fail "reset" :: [])).result = Except.error "reset" :=
  ⟨((c5_fetch_failure_cleanup [] "in.tmp" "404").1 [.chunk 1]).1,
    ((c5_fetch_failure_cleanup [] "in.tmp" "reset").2 [.chunk 2] [] (by decide)).1⟩

/-- C7: at the start of a conversion, once fresh metadata is fetched and
the key derived, an already-present artifact is returned immediately:
the filesystem is untouched and neither the source fetch nor the
transcoder runs (both effect counters are zero). -/
theorem c7_worker_recheck (env : ConvEnv) (file_id : String) (fs : FS) (m : Meta)
    (hm : env.meta = Except.ok m)
    (hex : fsExists fs
        (cachePathOf (make_cache_key file_id (some (metaTime m)) env.now)) = true) :
    convert_and_cache env file_id fs
      = ⟨fs, [fs],
          Except.ok (cachePathOf (make_cache_key file_id (some (metaTime m)) env.now)),
          ⟨0, 0⟩⟩ := by
  simp [convert_and_cache, hm, hex]

def c7Env : ConvEnv :=
  ⟨Except.ok ⟨some "t", none⟩, 0, Except.ok (), [], "in.tmp", "out.tmp", ⟨0, ""⟩, none⟩

def c7FS : FS := [(cachePathOf "id_t", Content.full "a")]

/-- C7 witness: a concrete cache hit. -/
theorem c7_worker_recheck_witness :
    convert_and_cache c7Env "id" c7FS
      = ⟨c7FS, [c7FS],
          Except.ok (cachePathOf (make_cache_key "id" (some (metaTime ⟨some "t", none⟩)) 0)),
          ⟨0, 0⟩⟩ :=
  c7_worker_recheck c7Env "id" c7FS ⟨some "t", none⟩ rfl (by decide)

/-- C10: `api_convert` fetches metadata before consulting the cache, so a
metadata-fetch failure yields a server error even when a valid cached
artifact is present in the store. -/
theorem c10_metadata_gates_cache (fid e : String) (now : Nat) (fs : FS)
    (obtainResult : Except String String) (k : String)
    (hfid : fid ≠ "")
    (hcache : fsExists fs (cachePathOf k) = true) :
    api_convert (some fid) (Except.error e) now fs obtainResult
      = HttpResponse.serverError e := by
  simp [api_convert, hfid]

def c10FS : FS := [(cachePathOf (make_cache_key "f" (some "t") 0), Content.full "a")]

/-- C10 witness: the cached artifact for the request's own key is present,
yet the metadata failure is returned. -/
theorem c10_metadata_gates_cache_witness :
    api_convert (some "f") (Except.error "timeout") 0 c10FS (Except.ok "x")
      = HttpResponse.serverError "timeout" :=
  c10_metadata_gates_cache "f" "timeout" 0 c10FS (Except.ok "x")
    (make_cache_key "f" (some "t") 0) (by decide) (by decide)

theorem download_preserves (fs : FS) (tmp q : String) (hne : tmp ≠ q)
    (initial : Except String Unit) (stream : List FetchEv) :
    fsGet (download_drive_file_to_temp fs tmp initial stream).fs q = fsGet fs q ∧
    ∀ fs' ∈ (download_drive_file_to_temp fs tmp initial stream).trace,
      fsGet fs' q = fsGet fs q := by
  cases initial with
  | error e =>
    exact ⟨rfl, by intro fs' h; simp [download_drive_file_to_temp] at h⟩
  | ok u =>
    cases u
    obtain ⟨hf, ht⟩ := downloadGo_preserves tmp q hne stream (fsSet fs tmp (.part 0)) 0
    have hset : fsGet (fsSet fs tmp (.part 0)) q = fsGet fs q :=
      fsGet_set_ne fs tmp q _ hne
    simp only [download_drive_file_to_temp]
    refine ⟨by rw [hf, hset], ?_⟩
    intro fs' h
    rcases List.mem_cons.mp h with h' | h'
    · rw [h', hset]
    · rw [ht fs' h', hset]

theorem download_ok_name (fs : FS) (tmp : String) (initial : Except String Unit)
    (stream : List FetchEv) (v : String)
    (h : (download_drive_file_to_temp fs tmp initial stream).result = .ok v) :
    v = tmp := by
  cases initial with
  | error e => simp [download_drive_file_to_temp] at h
  | ok u =>
    cases u
    simp only [download_drive_file_to_temp] at h
    exact downloadGo_ok_name tmp stream _ _ v h

theorem convert_awb_preserves (fs : FS) (out q : String) (proc : ProcResult)
    (produced : Option Content) (hne : out ≠ q) :
    fsGet (convert_awb_to_mp3 fs out proc produced).fs q = fsGet fs q ∧
    ∀ fs' ∈ (convert_awb_to_mp3 fs out proc produced).trace,
      fsGet fs' q = fsGet fs q := by
  have hfs1 : ∀ g : FS, fsGet (if fsExists g out then fsRemove g out else g) q = fsGet g q :=
    fun g => fsGet_removeIfExists_ne g out q hne
  cases produced with
  | none =>
    by_cases h : proc.returncode = 0
    · constructor
      · simp [convert_awb_to_mp3, h]
      · intro fs' hmem
        simp [convert_awb_to_mp3, h] at hmem
        rw [hmem]
    · constructor
      · simp only [convert_awb_to_mp3, if_neg h]
        exact hfs1 fs
      · intro fs' hmem
        simp [convert_awb_to_mp3, h] at hmem
        rcases hmem with h' | h'
        · rw [h']
        · rw [h']; exact hfs1 fs
  | some c =>
    have hset : fsGet (fsSet fs out c) q = fsGet fs q := fsGet_set_ne fs out q c hne
    by_cases h : proc.returncode = 0
    · constructor
      · simp only [convert_awb_to_mp3, if_pos h]
        exact hset
      · intro fs' hmem
        simp [convert_awb_to_mp3, h] at hmem
        rw [hmem]; exact hset
    · constructor
      · simp only [convert_awb_to_mp3, if_neg h]
        rw [hfs1 (fsSet fs out c)]; exact hset
      · intro fs' hmem
        simp [convert_awb_to_mp3, h] at hmem
        rcases hmem with h' | h'
        · rw [h']; exact hset
        · rw [h', hfs1 (fsSet fs out c)]; exact hset

theorem convert_awb_ok_rc (fs : FS) (out : String) (proc : ProcResult)
    (produced : Option Content)
    (h : (convert_awb_to_mp3 fs out proc produced).result = .ok ()) :
    proc.returncode = 0 := by
  by_cases hrc : proc.returncode = 0
  · exact hrc
  · simp [convert_awb_to_mp3, hrc] at h

theorem convert_awb_ok_fs (fs : FS) (out : String) (proc : ProcResult) (c : Content)
    (h : proc.returncode = 0) :
    convert_awb_to_mp3 fs out proc (some c)
      = ⟨fsSet fs out c, [fsSet fs out c], .ok ()⟩ := by
  simp [convert_awb_to_mp3, h]

/-- C4: the worker writes only to private temp paths until the single
`os.replace` installs the complete artifact, so at every filesystem state
of the run the store path for the key is either absent or a complete
artifact — never a partial file; and `os.replace` tolerates an existing
destination, succeeding with the new content (last-writer-wins). -/
theorem c4_atomic_install (env : ConvEnv) (file_id : String) (fs : FS) (m : Meta)
    (art cached : String)
    (hm : env.meta = Except.ok m)
    (hcached : cached = cachePathOf (make_cache_key file_id (some (metaTime m)) env.now))
    (hin : env.inTmp ≠ cached) (hout : env.outTmp ≠ cached)
    (hprod : env.proc.returncode = 0 → env.produced = some (Content.full art))
    (h0 : fsGet fs cached = none) :
    (∀ fs' ∈ (convert_and_cache env file_id fs).trace,
      fsGet fs' cached = none ∨ fsGet fs' cached = some (Content.full art)) ∧
    (∀ (g : FS) (src dst : String) (c cOld : Content),
      fsGet g src = some c → fsGet g dst = some cOld →
      fsGet (osReplace g src dst) dst = some c) := by
  constructor
  · have hmiss : fsExists fs cached = false := by simp [fsExists, h0]
    obtain ⟨hdlf, hdlt⟩ :=
      download_preserves fs env.inTmp cached hin env.dlInitial env.dlStream
    simp only [convert_and_cache, hm, ← hcached, hmiss, Bool.false_eq_true, if_false]
    cases hdl : (download_drive_file_to_temp fs env.inTmp env.dlInitial env.dlStream).result with
    | error e =>
      simp only [hdl]
      intro fs' hmem
      rcases List.mem_cons.mp hmem with h' | h'
      · rw [h']; left; exact h0
      · left; rw [hdlt fs' h']; exact h0
    | ok input_tmp =>
      have hname : input_tmp = env.inTmp :=
        download_ok_name fs env.inTmp env.dlInitial env.dlStream input_tmp hdl
      subst hname
      simp only [hdl]
      have hfs2 :
          fsGet (fsSet (download_drive_file_to_temp fs env.inTmp env.dlInitial
            env.dlStream).fs env.outTmp (.part 0)) cached = none := by
        rw [fsGet_set_ne _ _ _ _ hout, hdlf]; exact h0
      obtain ⟨hcvf, hcvt⟩ :=
        convert_awb_preserves (fsSet (download_drive_file_to_temp fs env.inTmp
          env.dlInitial env.dlStream).fs env.outTmp (.part 0)) env.outTmp cached
          env.proc env.produced hout
      cases hcv : (convert_awb_to_mp3 (fsSet (download_drive_file_to_temp fs env.inTmp
          env.dlInitial env.dlStream).fs env.outTmp (.part 0)) env.outTmp env.proc
          env.produced).result with
      | error e =>
        simp only [hcv]
        intro fs' hmem
        simp only [List.mem_cons, List.mem_append, List.mem_singleton, List.not_mem_nil, or_false] at hmem
        rcases hmem with ((h' | h') | (h' | h')) | h'
        · rw [h']; left; exact h0
        · left; rw [hdlt fs' h']; exact h0
        · rw [h']; left; exact hfs2
        · left; rw [hcvt fs' h', hfs2]
        · rw [h']; left
          rw [fsGet_removeIfExists_ne _ _ _ hin, hcvf]
          exact hfs2
      | ok u =>
        cases u
        have hrc : env.proc.returncode = 0 :=
          convert_awb_ok_rc _ _ _ _ hcv
        have hcfull :
            fsGet (convert_awb_to_mp3 (fsSet (download_drive_file_to_temp fs env.inTmp
              env.dlInitial env.dlStream).fs env.outTmp (.part 0)) env.outTmp env.proc
              env.produced).fs env.outTmp = some (Content.full art) := by
          rw [hprod hrc, convert_awb_ok_fs _ _ _ _ hrc]
          exact fsGet_set_self _ _ _
        have hreplace :
            fsGet (osReplace (convert_awb_to_mp3 (fsSet (download_drive_file_to_temp fs
              env.inTmp env.dlInitial env.dlStream).fs env.outTmp (.part 0)) env.outTmp
              env.proc env.produced).fs env.outTmp cached) cached
              = some (Content.full art) := by
          unfold osReplace
          rw [hcfull]
          exact fsGet_set_self _ _ _
        simp only [hcv]
        intro fs' hmem
        simp only [List.mem_cons, List.mem_append, List.mem_singleton, List.not_mem_nil, or_false] at hmem
        rcases hmem with ((h' | h') | (h' | h')) | (h' | h')
        · rw [h']; left; exact h0
        · left; rw [hdlt fs' h']; exact h0
        · rw [h']; left; exact hfs2
        · left; rw [hcvt fs' h', hfs2]
        · rw [h']; right; exact hreplace
        · rw [h']; right
          rw [fsGet_removeIfExists_ne _ _ _ hin]
          exact hreplace
  · intro g src dst c cOld hsrc _
    unfold osReplace
    rw [hsrc]
    exact fsGet_set_self _ _ _

def c4Env : ConvEnv :=
  ⟨Except.ok ⟨some "t", none⟩, 0, Except.ok (), [.chunk 4], "in.tmp", "out.tmp",
    ⟨0, ""⟩, some (Content.full "ART")⟩

def c4Cached : String := cachePathOf (make_cache_key "id" (some (metaTime ⟨some "t", none⟩)) 0)

/-- C4 witness: a concrete successful run on an empty store. -/
theorem c4_atomic_install_witness :
    (∀ fs' ∈ (convert_and_cache c4Env "id" []).trace,
      fsGet fs' c4Cached = none ∨ fsGet fs' c4Cached = some (Content.full "ART")) ∧
    (∀ (g : FS) (src dst : String) (c cOld : Content),
      fsGet g src = some c → fsGet g dst = some cOld →
      fsGet (osReplace g src dst) dst = some c) :=
  c4_atomic_install c4Env "id" [] ⟨some "t", none⟩ "ART" c4Cached rfl rfl
    (by decide) (by decide) (by decide) rfl

theorem metaTime_modified (m : Meta) (t : String) (hm : m.modifiedTime = some t)
    (ht : t ≠ "") : metaTime m = t := by
  simp [metaTime, truthyOrElse, hm, ht]

theorem convert_success_installs (env : ConvEnv) (fid : String) (fs : FS) (m : Meta)
    (art : String)
    (hm : env.meta = Except.ok m)
    (hmiss : fsExists fs
      (cachePathOf (make_cache_key fid (some (metaTime m)) env.now)) = false)
    (hdli : env.dlInitial = Except.ok ())
    (hstream : ∀ ev ∈ env.dlStream, isChunk ev = true)
    (hrc : env.proc.returncode = 0)
    (hprod : env.produced = some (Content.full art))
    (hin : env.inTmp ≠ cachePathOf (make_cache_key fid (some (metaTime m)) env.now)) :
    (convert_and_cache env fid fs).result
      = Except.ok (cachePathOf (make_cache_key fid (some (metaTime m)) env.now)) ∧
    fsGet (convert_and_cache env fid fs).fs
        (cachePathOf (make_cache_key fid (some (metaTime m)) env.now))
      = some (Content.full art) := by
  have hdl : (download_drive_file_to_temp fs env.inTmp env.dlInitial
      env.dlStream).result = Except.ok env.inTmp := by
    rw [hdli]
    simp only [download_drive_file_to_temp]
    exact downloadGo_all_chunks_ok env.inTmp env.dlStream _ 0 hstream
  have hcv : convert_awb_to_mp3 (fsSet (download_drive_file_to_temp fs env.inTmp
      env.dlInitial env.dlStream).fs env.outTmp (.part 0)) env.outTmp env.proc
      env.produced
      = ⟨fsSet (fsSet (download_drive_file_to_temp fs env.inTmp env.dlInitial
            env.dlStream).fs env.outTmp (.part 0)) env.outTmp (Content.full art),
          [fsSet (fsSet (download_drive_file_to_temp fs env.inTmp env.dlInitial
            env.dlStream).fs env.outTmp (.part 0)) env.outTmp (Content.full art)],
          .ok ()⟩ := by
    rw [hprod]
    exact convert_awb_ok_fs _ _ _ _ hrc
  simp only [convert_and_cache, hm, hmiss, Bool.false_eq_true, if_false, hdl, hcv]
  have hout_full : fsGet (fsSet (fsSet (download_drive_file_to_temp fs env.inTmp
      env.dlInitial env.dlStream).fs env.outTmp (.part 0)) env.outTmp
      (Content.full art)) env.outTmp = some (Content.full art) :=
    fsGet_set_self _ _ _
  constructor
  · trivial
  · rw [fsGet_removeIfExists_ne _ _ _ hin]
    unfold osReplace
    rw [hout_full]
    exact fsGet_set_self _ _ _

/-- C9: the handler and the worker derive keys from independent metadata
fetches; if both fetches report the same non-empty `modifiedTime`, the
keys coincide, and a successful worker run installs the artifact at and
returns exactly the store path of that shared key (the path the handler
checked and deduplicated on); with differing timestamps the two keys can
differ, as the concrete pair shows. -/
theorem c9_handler_worker_key_agreement :
    (∀ fid t : String, ∀ m1 m2 : Meta, ∀ now1 now2 : Nat,
      m1.modifiedTime = some t → m2.modifiedTime = some t → t ≠ "" →
      make_cache_key fid (some (metaTime m1)) now1
        = make_cache_key fid (some (metaTime m2)) now2) ∧
    (∀ env : ConvEnv, ∀ fid : String, ∀ fs : FS, ∀ m : Meta, ∀ art : String,
      env.meta = Except.ok m →
      fsExists fs (cachePathOf (make_cache_key fid (some (metaTime m)) env.now)) = false →
      env.dlInitial = Except.ok () →
      (∀ ev ∈ env.dlStream, isChunk ev = true) →
      env.proc.returncode = 0 →
      env.produced = some (Content.full art) →
      env.inTmp ≠ cachePathOf (make_cache_key fid (some (metaTime m)) env.now) →
      (convert_and_cache env fid fs).result
        = Except.ok (cachePathOf (make_cache_key fid (some (metaTime m)) env.now)) ∧
      fsGet (convert_and_cache env fid fs).fs
          (cachePathOf (make_cache_key fid (some (metaTime m)) env.now))
        = some (Content.full art)) ∧
    make_cache_key "f" (some "2024-01-01T00-00-01Z") 0
      ≠ make_cache_key "f" (some "2024-01-02T00-00-02Z") 0 := by
  refine ⟨?_, ?_, ?_⟩
  · intro fid t m1 m2 now1 now2 h1 h2 ht
    rw [metaTime_modified m1 t h1 ht, metaTime_modified m2 t h2 ht,
      make_cache_key, make_cache_key]
    simp [ht]
  · intro env fid fs m art hm hmiss hdli hstream hrc hprod hin
    exact convert_success_installs env fid fs m art hm hmiss hdli hstream hrc hprod hin
  · decide

def c9Env : ConvEnv :=
  ⟨Except.ok ⟨some "T", none⟩, 3, Except.ok (), [.chunk 2], "a.tmp", "b.tmp",
    ⟨0, ""⟩, some (Content.full "MP3")⟩

/-- C9 witness: key agreement and a concrete successful installation at
the handler's path. -/
theorem c9_handler_worker_key_agreement_witness :
    make_cache_key "f" (some (metaTime ⟨some "T", none⟩)) 1
      = make_cache_key "f" (some (metaTime ⟨some "T", some "x"⟩)) 2 ∧
    (convert_and_cache c9Env "g" []).result
      = Except.ok (cachePathOf (make_cache_key "g" (some (metaTime ⟨some "T", none⟩)) 3)) :=
  ⟨c9_handler_worker_key_agreement.1 "f" "T" ⟨some "T", none⟩ ⟨some "T", some "x"⟩ 1 2
      rfl rfl (by decide),
    (c9_handler_worker_key_agreement.2.1 c9Env "g" [] ⟨some "T", none⟩ "MP3" rfl
      (by decide) rfl (by decide) (by decide) rfl (by decide)).1⟩
